import Mathlib

/-!
Verification of the flowchart text-to-graph parser (src/parse.rs).

The parser is shallowly embedded over `List Char`.  Each Rust function keeps
its source name (parse_id, parse_node, parse_edge, parse_comment, parse_line,
parse_graph); nom combinators (tag, take_until, space0, alphanumeric1,
not_line_ending, alt, opt, delimited) are embedded as small recursive
functions with the same success/remainder behaviour.  The stateful builder
loop of parse_graph becomes explicit state passing (BState, stepLine,
parseLines).  A possible out-of-bounds vector write (Rust `nodes[id] = ...`)
is modelled by an explicit bounds check whose failure is the distinguished
result `panic`.
-/

namespace Flowchart

/-- Strings of the Rust source are modelled as lists of characters. -/
abbrev Str := List Char

/-- Character class of nom `alphanumeric1` (ASCII letters and digits),
used by parse_id (parse.rs line 46). -/
def isIdChar (c : Char) : Bool := c.isAlphanum

/-- Character class of nom `space0`: spaces and tabs. -/
def isSpChar (c : Char) : Bool := c == ' ' || c == '\t'

/-- parse.rs lines 12-17: a parsed node statement. -/
structure ParsedNode where
  id : Str
  desc : Str
deriving DecidableEq

/-- parse.rs lines 19-26: a parsed edge statement. -/
structure ParsedEdge where
  src : Str
  dest : Str
  directed : Bool
  desc : Str
deriving DecidableEq

/-- parse.rs lines 28-33: the resulting graph (labels and edges). -/
structure Graph where
  nodes : List Str
  edges : List ParsedEdge
deriving DecidableEq

/-- parse.rs lines 35-42: classification of a single line. -/
inductive ParsedLine where
  | node (n : ParsedNode)
  | edge (e : ParsedEdge)
  | blank
  | comment (c : Str)
  | error
deriving DecidableEq

/-- nom `tag`: succeeds iff the pattern is a literal prefix of the input,
returning the remainder. -/
def tag : Str → Str → Option Str
  | [], s => some s
  | _ :: _, [] => none
  | c :: t, x :: s => if c = x then tag t s else none

/-- The maximal identifier-character run at the front of the input:
returns (remainder, matched run). -/
def spanId : Str → Str × Str
  | [] => ([], [])
  | c :: cs =>
    if isIdChar c then
      let p := spanId cs
      (p.1, c :: p.2)
    else (c :: cs, [])

/-- nom `alphanumeric1`: like `spanId` but fails when the run is empty. -/
def alphanumeric1 (s : Str) : Option (Str × Str) :=
  match spanId s with
  | (_, []) => none
  | (r, t) => some (r, t)

/-- parse.rs lines 45-47: parse_id is alphanumeric1. -/
def parse_id (s : Str) : Option (Str × Str) := alphanumeric1 s

/-- nom `take_until`: consumes up to (excluding) the first occurrence of the
target character; fails when the target is absent.  Returns
(remainder starting with the target, consumed part). -/
def takeUntil (c : Char) : Str → Option (Str × Str)
  | [] => none
  | x :: xs =>
    if x = c then some (x :: xs, [])
    else
      match takeUntil c xs with
      | none => none
      | some (r, p) => some (r, x :: p)

/-- nom `space0`: drops leading spaces and tabs (cannot fail). -/
def space0 (s : Str) : Str := s.dropWhile isSpChar

/-- parse.rs lines 50-60: parse_node, the grammar `id[text]` via
parse_id then delimited(tag("["), take_until("]"), tag("]")). -/
def parse_node (s : Str) : Option (Str × ParsedNode) :=
  match parse_id s with
  | none => none
  | some (s1, id) =>
    match tag ['['] s1 with
    | none => none
    | some s2 =>
      match takeUntil ']' s2 with
      | none => none
      | some (s3, desc) =>
        match tag [']'] s3 with
        | none => none
        | some s4 => some (s4, ⟨id, desc⟩)

/-- parse.rs lines 63-65: parse_edge_desc, the grammar `|text|` via
delimited(tag("|"), take_until("|"), tag("|")). -/
def parse_edge_desc (s : Str) : Option (Str × Str) :=
  match tag ['|'] s with
  | none => none
  | some s1 =>
    match takeUntil '|' s1 with
    | none => none
    | some (s2, d) =>
      match tag ['|'] s2 with
      | none => none
      | some s3 => some (s3, d)

/-- parse.rs line 72-73: alt((tag("-->"), tag("<-->"))), with the returned
Bool the `directed` flag (true iff the first alternative matched). -/
def arrowTok (s : Str) : Option (Str × Bool) :=
  match tag ['-', '-', '>'] s with
  | some r => some (r, true)
  | none =>
    match tag ['<', '-', '-', '>'] s with
    | some r => some (r, false)
    | none => none

/-- nom `opt(parse_edge_desc)`: an optional description, consuming nothing
on failure. -/
def optDesc (s : Str) : Str × Option Str :=
  match parse_edge_desc s with
  | some (r, d) => (r, some d)
  | none => (s, none)

/-- parse.rs lines 69-87: parse_edge, the grammar
`id ws* (-->|<-->) ws* (|text|)? ws* id`, edge description optional and
defaulting to the empty string. -/
def parse_edge (s : Str) : Option (Str × ParsedEdge) :=
  match parse_id s with
  | none => none
  | some (s1, src) =>
    match arrowTok (space0 s1) with
    | none => none
    | some (s2, directed) =>
      match parse_id (space0 (optDesc (space0 s2)).1) with
      | none => none
      | some (s5, dest) =>
        some (s5, ⟨src, dest, directed, ((optDesc (space0 s2)).2).getD []⟩)

/-- nom `not_line_ending`: consumes every character before the first line
ending; a carriage return not followed by a line feed is an error.
Returns (remainder, consumed part). -/
def notLineEnding : Str → Option (Str × Str)
  | [] => some ([], [])
  | c :: cs =>
    if c = '\n' then some (c :: cs, [])
    else if c = '\r' then
      if cs.head? = some '\n' then some (c :: cs, []) else none
    else
      match notLineEnding cs with
      | none => none
      | some (r, p) => some (r, c :: p)

/-- parse.rs lines 90-94: parse_comment, tag("%%") then not_line_ending;
the value returned is the remaining input (parse.rs line 93). -/
def parse_comment (s : Str) : Option (Str × Str) :=
  match tag ['%', '%'] s with
  | none => none
  | some s1 =>
    match notLineEnding s1 with
    | none => none
    | some (r, _) => some (r, r)

/-- parse.rs lines 97-118: parse_line, trying blank, comment, node, edge in
order, with the infallible fallback `ParsedLine::Error`. -/
def parse_line (s : Str) : Option (Str × ParsedLine) :=
  if space0 s = [] then some (space0 s, .blank)
  else
    match parse_comment (space0 s) with
    | some (r, c) => some (r, .comment c)
    | none =>
      match parse_node (space0 s) with
      | some (r, n) => some (r, .node n)
      | none =>
        match parse_edge (space0 s) with
        | some (r, e) => some (r, .edge e)
        | none => some (space0 s, .error)

/-- The builder state of parse_graph (parse.rs lines 122-124): the label
list `nodes`, the edge list `edges`, and the identifier table `node_map`
(the FxHashMap, modelled as an association list where the most recent
insertion shadows older ones). -/
structure BState where
  nodes : List Str
  edges : List ParsedEdge
  node_map : List (Str × Nat)
deriving DecidableEq

/-- HashMap::get / contains_key on the association-list model. -/
def mapFind : List (Str × Nat) → Str → Option Nat
  | [], _ => none
  | (k2, v) :: rest, k => if k2 = k then some v else mapFind rest k

/-- Result of processing one line: a new state, an early error return, or a
Rust panic (out-of-bounds index). -/
inductive StepRes where
  | ok (st : BState)
  | err (msg : Str)
  | panic
deriving DecidableEq

/-- parse.rs lines 128-136: the ParsedLine::Node arm.  When the identifier
is known, Rust executes `nodes[id] = node.id.clone()` (an indexed write,
which panics when out of bounds) and then unconditionally
`nodes.push(node.desc)`; when unknown it inserts the next index and pushes. -/
def applyNode (st : BState) (n : ParsedNode) : StepRes :=
  match mapFind st.node_map n.id with
  | some i =>
    if i < st.nodes.length then
      .ok ⟨(st.nodes.set i n.id) ++ [n.desc], st.edges, st.node_map⟩
    else .panic
  | none =>
    .ok ⟨st.nodes ++ [n.desc], st.edges, (n.id, st.nodes.length) :: st.node_map⟩

/-- parse.rs lines 137-145: the ParsedLine::Edge arm.  Unknown endpoint
identifiers are inserted into the map with index `nodes.len()` (no label is
pushed); the edge is appended unconditionally. -/
def applyEdge (st : BState) (e : ParsedEdge) : BState :=
  let m1 := if (mapFind st.node_map e.src).isSome then st.node_map
            else (e.src, st.nodes.length) :: st.node_map
  let m2 := if (mapFind m1 e.dest).isSome then m1
            else (e.dest, st.nodes.length) :: m1
  ⟨st.nodes, st.edges ++ [e], m2⟩

/-- The apostrophe character (used by the error messages of parse.rs). -/
def sq : Char := Char.ofNat 39

/-- parse.rs line 148: `format!("Failed to parse line sq{}sq", input)`
with sq the apostrophe. -/
def lineErrMsg (l : Str) : Str :=
  ("Failed to parse line ".toList) ++ sq :: l ++ [sq]

/-- parse.rs line 151: the message of the Err match arm.  Its Debug payload
(`{:?}` of the nom error) is left out: the arm is proved unreachable. -/
def nomErrMsg (l : Str) : Str :=
  ("Failed to parse line ".toList) ++ sq :: l ++ sq :: (": ".toList)

/-- parse.rs lines 126-152: the body of the per-line loop of parse_graph. -/
def stepLine (st : BState) (l : Str) : StepRes :=
  match parse_line l with
  | none => .err (nomErrMsg l)
  | some (rest, pl) =>
    match pl with
    | .node n => applyNode st n
    | .edge e => .ok (applyEdge st e)
    | .blank => .ok st
    | .comment _ => .ok st
    | .error => .err (lineErrMsg rest)

/-- Overall result of parse_graph: Ok(Graph), Err(String), or a panic. -/
inductive PResult where
  | ok (g : Graph)
  | err (msg : Str)
  | panic
deriving DecidableEq

/-- parse.rs lines 125-154: the fold of the per-line loop over all lines,
ending with `Ok(Graph { nodes, edges })`. -/
def parseLines : BState → List Str → PResult
  | st, [] => .ok ⟨st.nodes, st.edges⟩
  | st, l :: ls =>
    match stepLine st l with
    | .ok st2 => parseLines st2 ls
    | .err m => .err m
    | .panic => .panic

/-- Splitting at every line feed (the line feed itself removed); the result
is always nonempty. -/
def splitNl : Str → List Str
  | [] => [[]]
  | c :: cs =>
    if c = '\n' then [] :: splitNl cs
    else
      match splitNl cs with
      | [] => [[c]]
      | p :: ps => (c :: p) :: ps

/-- Strip one trailing carriage return (for pieces that preceded a line
feed, matching the `\r\n` handling of Rust `str::lines`). -/
def stripCr (l : Str) : Str := if l.getLast? = some '\r' then l.dropLast else l

/-- Rust `str::lines` post-processing of the split pieces: every piece that
preceded a line feed has a trailing carriage return stripped; a final empty
piece (from a trailing line feed, or an empty input) is dropped. -/
def linesAux : List Str → List Str
  | [] => []
  | p :: ps =>
    match ps with
    | [] => if p = [] then [] else [p]
    | _ :: _ => stripCr p :: linesAux ps

/-- Rust `input.lines()` (parse.rs line 125). -/
def rustLines (s : Str) : List Str := linesAux (splitNl s)

/-- parse.rs lines 121-155: parse_graph. -/
def parse_graph (s : Str) : PResult := parseLines ⟨[], [], []⟩ (rustLines s)

/-- parse.rs lines 157-163: `Graph::from_str` delegates to parse_graph. -/
def from_str (s : String) : PResult := parse_graph s.toList

/-- A well-formed identifier: nonempty, all characters alphanumeric
(exactly what parse_id accepts in full). -/
def isValidId (w : Str) : Bool := !w.isEmpty && w.all isIdChar

/-- True when the input does not start with an identifier character. -/
def noIdHead : Str → Bool
  | [] => true
  | c :: _ => !isIdChar c

/-- True when the input does not start with a space or tab. -/
def noSpHead : Str → Bool
  | [] => true
  | c :: _ => !isSpChar c

/-- A label that can sit inside `id[label]` on one line: it contains no
closing bracket and no line feed. -/
def goodLabel (l : Str) : Prop := (']' : Char) ∉ l ∧ ('\n' : Char) ∉ l

/-- An edge record as produced by parse_edge from one line: valid endpoint
identifiers and a description without pipe or line feed. -/
def goodEdge (e : ParsedEdge) : Prop :=
  isValidId e.src = true ∧ isValidId e.dest = true ∧
    ('|' : Char) ∉ e.desc ∧ ('\n' : Char) ∉ e.desc

/-- Modelled from the spec: identifier invented for the i-th node by the
trivial serializer.  The Graph retains no identifiers (only labels), so the
serializer must invent fresh, pairwise distinct alphanumeric names; here the
i-th node is named by i+1 repetitions of the letter n. -/
def nodeId (i : Nat) : Str := List.replicate (i + 1) 'n'

/-- Modelled from the spec: the serialized node line `id[label]`. -/
def nodeLine (i : Nat) (lbl : Str) : Str := nodeId i ++ '[' :: (lbl ++ [']'])

/-- The arrow token of an edge, by directedness. -/
def arrowStr (d : Bool) : Str :=
  if d then ['-', '-', '>'] else ['<', '-', '-', '>']

/-- Modelled from the spec: the serialized edge line
`src --> |label| dest` or `src <--> |label| dest`. -/
def edgeLine (e : ParsedEdge) : Str :=
  e.src ++ ' ' :: arrowStr e.directed ++ ' ' :: '|' :: e.desc ++ '|' :: ' ' :: e.dest

/-- The node lines of the serializer, numbering nodes from index i. -/
def nodeLinesFrom : Nat → List Str → List Str
  | _, [] => []
  | i, lbl :: rest => nodeLine i lbl :: nodeLinesFrom (i + 1) rest

/-- Joining lines with a line feed separator. -/
def joinNl : List Str → Str
  | [] => []
  | l :: ls =>
    match ls with
    | [] => l
    | _ :: _ => l ++ '\n' :: joinNl ls

/-- Modelled from the spec: the trivial serializer — one `id[label]` line
per node (identifiers invented, since the Graph stores none), then one
`src --> |label| dest` / `src <--> |label| dest` line per edge. -/
def trivialSerialize (g : Graph) : Str :=
  joinNl (nodeLinesFrom 0 g.nodes ++ g.edges.map edgeLine)

/-! ### Character-class and combinator lemmas -/

theorem isValidId_iff {w : Str} :
    isValidId w = true ↔ w ≠ [] ∧ ∀ c ∈ w, isIdChar c = true := by
  simp [isValidId, List.all_eq_true, List.isEmpty_iff]

theorem ne_of_idChar {c d : Char} (h : isIdChar c = true)
    (hd : isIdChar d = false) : c ≠ d := by
  intro e; rw [e, hd] at h; cases h

theorem idChar_not_sp {c : Char} (h : isIdChar c = true) : isSpChar c = false := by
  cases hs : isSpChar c with
  | false => rfl
  | true =>
    exfalso
    have : c = ' ' ∨ c = '\t' := by
      simpa [isSpChar] using hs
    rcases this with h2 | h2 <;> (rw [h2] at h; cases h)

theorem tag_append (t r : Str) : tag t (t ++ r) = some r := by
  induction t with
  | nil => rfl
  | cons c t ih => simp [tag, ih]

theorem tag_eq_some {t s r : Str} (h : tag t s = some r) : s = t ++ r := by
  induction t generalizing s with
  | nil => cases h; rfl
  | cons c t ih =>
    cases s with
    | nil => cases h
    | cons x s =>
      by_cases hc : c = x
      · subst hc
        simp only [tag, if_pos rfl] at h
        simpa using ih h
      · simp [tag, hc] at h

theorem tag_cons_ne {c x : Char} (t s : Str) (h : c ≠ x) :
    tag (c :: t) (x :: s) = none := by
  simp [tag, h]

theorem spanId_append {t : Str} (r : Str) (ht : ∀ c ∈ t, isIdChar c = true)
    (hr : noIdHead r = true) : spanId (t ++ r) = (r, t) := by
  induction t with
  | nil =>
    cases r with
    | nil => rfl
    | cons c cs =>
      have : isIdChar c = false := by simpa [noIdHead] using hr
      simp [spanId, this]
  | cons a t ih =>
    have ha : isIdChar a = true := ht a (by simp)
    have := ih (fun c hc => ht c (by simp [hc]))
    simp [spanId, ha, this]

theorem spanId_split (s : Str) : (spanId s).2 ++ (spanId s).1 = s := by
  induction s with
  | nil => rfl
  | cons c cs ih =>
    by_cases hc : isIdChar c
    · simp [spanId, hc, ih]
    · simp [spanId, hc]

theorem spanId_chars (s : Str) : ∀ c ∈ (spanId s).2, isIdChar c = true := by
  induction s with
  | nil => simp [spanId]
  | cons x xs ih =>
    by_cases hx : isIdChar x
    · simp only [spanId, if_pos hx]
      intro c hc
      rcases List.mem_cons.mp hc with h | h
      · rw [h]; exact hx
      · exact ih c h
    · simp [spanId, hx]

theorem parse_id_eq {t : Str} (r : Str) (h0 : t ≠ [])
    (ht : ∀ c ∈ t, isIdChar c = true) (hr : noIdHead r = true) :
    parse_id (t ++ r) = some (r, t) := by
  rw [parse_id, alphanumeric1, spanId_append r ht hr]
  cases t with
  | nil => exact absurd rfl h0
  | cons a t => rfl

theorem parse_id_eq_some {s r t : Str} (h : parse_id s = some (r, t)) :
    s = t ++ r ∧ t ≠ [] ∧ ∀ c ∈ t, isIdChar c = true := by
  rw [parse_id, alphanumeric1] at h
  have hs := spanId_split s
  have hc := spanId_chars s
  cases hsp : spanId s with
  | mk r2 t2 =>
    rw [hsp] at h hs hc
    cases t2 with
    | nil => simp at h
    | cons a t2 =>
      simp only at h
      cases h
      refine ⟨hs.symm, by simp, hc⟩

theorem parse_id_valid {s r t : Str} (h : parse_id s = some (r, t)) :
    isValidId t = true :=
  isValidId_iff.mpr ⟨(parse_id_eq_some h).2.1, (parse_id_eq_some h).2.2⟩

theorem parse_id_head {s r t : Str} (h : parse_id s = some (r, t)) :
    ∃ c s2, s = c :: s2 ∧ isIdChar c = true := by
  obtain ⟨hs, h0, hc⟩ := parse_id_eq_some h
  cases t with
  | nil => exact absurd rfl h0
  | cons a t2 => exact ⟨a, t2 ++ r, by simp [hs], hc a (by simp)⟩

theorem takeUntil_append {p : Str} (c : Char) (r : Str) (hp : c ∉ p) :
    takeUntil c (p ++ c :: r) = some (c :: r, p) := by
  induction p with
  | nil => simp [takeUntil]
  | cons x p ih =>
    have hx : ¬x = c := fun e => hp (by simp [e])
    have := ih (fun hc => hp (by simp [hc]))
    simp [takeUntil, hx, this]

theorem takeUntil_eq_some {c : Char} {s r p : Str}
    (h : takeUntil c s = some (r, p)) :
    ∃ r2, r = c :: r2 ∧ s = p ++ c :: r2 ∧ c ∉ p := by
  induction s generalizing r p with
  | nil => cases h
  | cons x xs ih =>
    by_cases hx : x = c
    · subst hx
      simp only [takeUntil, if_pos rfl] at h
      cases h
      exact ⟨xs, rfl, rfl, by simp⟩
    · simp only [takeUntil, if_neg hx] at h
      cases htu : takeUntil c xs with
      | none => rw [htu] at h; cases h
      | some v =>
        cases v with
        | mk r2 p2 =>
          rw [htu] at h
          simp only [Option.some.injEq, Prod.mk.injEq] at h
          obtain ⟨hr, hp2⟩ := h
          obtain ⟨r3, h1, h2, h3⟩ := ih htu
          refine ⟨r3, by rw [← hr, h1], by simp [← hp2, h2], ?_⟩
          rw [← hp2]
          simp only [List.mem_cons, not_or]
          exact ⟨fun e => hx e.symm, h3⟩

theorem space0_eq_of_noSp {s : Str} (h : noSpHead s = true) : space0 s = s := by
  cases s with
  | nil => rfl
  | cons c cs =>
    have : isSpChar c = false := by simpa [noSpHead] using h
    simp [space0, List.dropWhile_cons, this]

theorem space0_cons_sp {c : Char} (s : Str) (h : isSpChar c = true) :
    space0 (c :: s) = space0 s := by
  simp [space0, List.dropWhile_cons, h]

theorem mem_of_mem_space0 {c : Char} {s : Str} (h : c ∈ space0 s) : c ∈ s :=
  (List.dropWhile_sublist _).mem h

theorem noIdHead_cons {c : Char} (s : Str) (h : isIdChar c = false) :
    noIdHead (c :: s) = true := by
  simp [noIdHead, h]

theorem noSpHead_cons {c : Char} (s : Str) (h : isSpChar c = false) :
    noSpHead (c :: s) = true := by
  simp [noSpHead, h]

theorem noSpHead_valid {w : Str} (h : isValidId w = true) : noSpHead w = true := by
  obtain ⟨h0, hc⟩ := isValidId_iff.mp h
  cases w with
  | nil => rfl
  | cons c cs => exact noSpHead_cons _ (idChar_not_sp (hc c (by simp)))

theorem parse_id_all {w : Str} (h : isValidId w = true) :
    parse_id w = some ([], w) := by
  obtain ⟨h0, hc⟩ := isValidId_iff.mp h
  have := parse_id_eq [] h0 hc rfl
  simpa using this

/-! ### Statement-level parse lemmas -/

/-- A well-formed node statement with arbitrary trailing text parses to
exactly that node, leaving the trailing text unconsumed. -/
theorem parse_node_stmt {id lbl : Str} (r : Str) (hid : isValidId id = true)
    (hlbl : (']' : Char) ∉ lbl) :
    parse_node (id ++ '[' :: (lbl ++ ']' :: r)) = some (r, ⟨id, lbl⟩) := by
  obtain ⟨h0, hc⟩ := isValidId_iff.mp hid
  have h1 : parse_id (id ++ '[' :: (lbl ++ ']' :: r)) =
      some ('[' :: (lbl ++ ']' :: r), id) :=
    parse_id_eq _ h0 hc (noIdHead_cons _ (by decide))
  have h2 : tag ['['] ('[' :: (lbl ++ ']' :: r)) = some (lbl ++ ']' :: r) :=
    tag_append ['['] _
  have h3 : takeUntil ']' (lbl ++ ']' :: r) = some (']' :: r, lbl) :=
    takeUntil_append ']' r hlbl
  have h4 : tag [']'] (']' :: r) = some r := tag_append [']'] r
  simp [parse_node, h1, h2, h3, h4]

/-- parse_node fails when the identifier is followed by anything other
than an opening bracket. -/
theorem parse_node_fail {id : Str} {c : Char} (r : Str)
    (hid : isValidId id = true) (hc1 : isIdChar c = false) (hc2 : c ≠ '[') :
    parse_node (id ++ c :: r) = none := by
  obtain ⟨h0, hcs⟩ := isValidId_iff.mp hid
  have h1 : parse_id (id ++ c :: r) = some (c :: r, id) :=
    parse_id_eq _ h0 hcs (noIdHead_cons _ hc1)
  have h2 : tag ['['] (c :: r) = none := tag_cons_ne _ _ fun e => hc2 e.symm
  simp [parse_node, h1, h2]

theorem arrowTok_append (d : Bool) (z : Str) :
    arrowTok (arrowStr d ++ z) = some (z, d) := by
  cases d with
  | true =>
    have : tag ['-', '-', '>'] (arrowStr true ++ z) = some z := tag_append _ _
    simp [arrowTok, this]
  | false =>
    have h1 : tag ['-', '-', '>'] (arrowStr false ++ z) = none := by
      show tag ('-' :: ['-', '>']) ('<' :: (['-', '-', '>'] ++ z)) = none
      exact tag_cons_ne _ _ (by decide)
    have h2 : tag ['<', '-', '-', '>'] (arrowStr false ++ z) = some z :=
      tag_append _ _
    simp [arrowTok, h1, h2]

theorem noSpHead_arrow (d : Bool) (z : Str) : noSpHead (arrowStr d ++ z) = true := by
  cases d with
  | true => exact noSpHead_cons _ (by decide)
  | false => exact noSpHead_cons _ (by decide)

/-- tag("|") fails on a valid identifier. -/
theorem tag_pipe_valid {w : Str} (h : isValidId w = true) (z : Str) :
    tag ['|'] (w ++ z) = none := by
  obtain ⟨h0, hc⟩ := isValidId_iff.mp h
  cases w with
  | nil => exact absurd rfl h0
  | cons c cs =>
    exact tag_cons_ne _ _ fun e => (ne_of_idChar (hc c (by simp)) (by decide)) e.symm

/-- A well-formed edge statement with a pipe-delimited description parses
to exactly that edge. -/
theorem parse_edge_stmt_desc {src d dest : Str} (dir : Bool)
    (hsrc : isValidId src = true) (hdest : isValidId dest = true)
    (hd : ('|' : Char) ∉ d) :
    parse_edge (src ++ ' ' :: (arrowStr dir ++ ' ' :: '|' :: (d ++ '|' :: ' ' :: dest))) =
      some ([], ⟨src, dest, dir, d⟩) := by
  obtain ⟨h0, hcs⟩ := isValidId_iff.mp hsrc
  have h1 : parse_id (src ++ ' ' :: (arrowStr dir ++ ' ' :: '|' :: (d ++ '|' :: ' ' :: dest))) =
      some (' ' :: (arrowStr dir ++ ' ' :: '|' :: (d ++ '|' :: ' ' :: dest)), src) :=
    parse_id_eq _ h0 hcs (noIdHead_cons _ (by decide))
  have h2 : space0 (' ' :: (arrowStr dir ++ ' ' :: '|' :: (d ++ '|' :: ' ' :: dest))) =
      arrowStr dir ++ ' ' :: '|' :: (d ++ '|' :: ' ' :: dest) := by
    rw [space0_cons_sp _ (by decide)]
    exact space0_eq_of_noSp (noSpHead_arrow dir _)
  have h3 : arrowTok (arrowStr dir ++ ' ' :: '|' :: (d ++ '|' :: ' ' :: dest)) =
      some (' ' :: '|' :: (d ++ '|' :: ' ' :: dest), dir) := arrowTok_append dir _
  have h4 : space0 (' ' :: '|' :: (d ++ '|' :: ' ' :: dest)) =
      '|' :: (d ++ '|' :: ' ' :: dest) := by
    rw [space0_cons_sp _ (by decide)]
    exact space0_eq_of_noSp (noSpHead_cons _ (by decide))
  have h5 : parse_edge_desc ('|' :: (d ++ '|' :: ' ' :: dest)) =
      some (' ' :: dest, d) := by
    have t1 : tag ['|'] ('|' :: (d ++ '|' :: ' ' :: dest)) =
        some (d ++ '|' :: ' ' :: dest) := tag_append ['|'] _
    have t2 : takeUntil '|' (d ++ '|' :: ' ' :: dest) =
        some ('|' :: ' ' :: dest, d) := takeUntil_append '|' _ hd
    have t3 : tag ['|'] ('|' :: ' ' :: dest) = some (' ' :: dest) :=
      tag_append ['|'] _
    simp [parse_edge_desc, t1, t2, t3]
  have h6 : space0 (' ' :: dest) = dest := by
    rw [space0_cons_sp _ (by decide)]
    exact space0_eq_of_noSp (noSpHead_valid hdest)
  have h7 : parse_id dest = some ([], dest) := parse_id_all hdest
  simp [parse_edge, optDesc, h1, h2, h3, h4, h5, h6, h7]

/-- A well-formed edge statement without a description parses to exactly
that edge, with the description defaulting to the empty string. -/
theorem parse_edge_stmt_nodesc {src dest : Str} (dir : Bool)
    (hsrc : isValidId src = true) (hdest : isValidId dest = true) :
    parse_edge (src ++ ' ' :: (arrowStr dir ++ ' ' :: dest)) =
      some ([], ⟨src, dest, dir, []⟩) := by
  obtain ⟨h0, hcs⟩ := isValidId_iff.mp hsrc
  have h1 : parse_id (src ++ ' ' :: (arrowStr dir ++ ' ' :: dest)) =
      some (' ' :: (arrowStr dir ++ ' ' :: dest), src) :=
    parse_id_eq _ h0 hcs (noIdHead_cons _ (by decide))
  have h2 : space0 (' ' :: (arrowStr dir ++ ' ' :: dest)) =
      arrowStr dir ++ ' ' :: dest := by
    rw [space0_cons_sp _ (by decide)]
    exact space0_eq_of_noSp (noSpHead_arrow dir _)
  have h3 : arrowTok (arrowStr dir ++ ' ' :: dest) = some (' ' :: dest, dir) :=
    arrowTok_append dir _
  have h4 : space0 (' ' :: dest) = dest := by
    rw [space0_cons_sp _ (by decide)]
    exact space0_eq_of_noSp (noSpHead_valid hdest)
  have h5 : parse_edge_desc dest = none := by
    have := tag_pipe_valid hdest []
    rw [List.append_nil] at this
    simp [parse_edge_desc, this]
  have h6 : space0 dest = dest := space0_eq_of_noSp (noSpHead_valid hdest)
  have h7 : parse_id dest = some ([], dest) := parse_id_all hdest
  simp [parse_edge, optDesc, h1, h2, h3, h4, h5, h6, h7]

theorem parse_comment_fail {c : Char} (s : Str) (h : isIdChar c = true) :
    parse_comment (c :: s) = none := by
  have h1 : tag ['%', '%'] (c :: s) = none :=
    tag_cons_ne _ _ fun e => (ne_of_idChar h (by decide)) e.symm
  simp [parse_comment, h1]

theorem parse_node_head {s r : Str} {n : ParsedNode}
    (h : parse_node s = some (r, n)) :
    ∃ c s2, s = c :: s2 ∧ isIdChar c = true := by
  rw [parse_node] at h
  cases hid : parse_id s with
  | none => rw [hid] at h; cases h
  | some v =>
    cases v with
    | mk s1 id => exact parse_id_head hid

theorem parse_edge_head {s r : Str} {e : ParsedEdge}
    (h : parse_edge s = some (r, e)) :
    ∃ c s2, s = c :: s2 ∧ isIdChar c = true := by
  rw [parse_edge] at h
  cases hid : parse_id s with
  | none => rw [hid] at h; cases h
  | some v =>
    cases v with
    | mk s1 id => exact parse_id_head hid

/-! ### parse_line composition and inversion -/

theorem parse_line_of_node {l r : Str} {n : ParsedNode}
    (h : parse_node (space0 l) = some (r, n)) :
    parse_line l = some (r, .node n) := by
  obtain ⟨c, s2, hs, hc⟩ := parse_node_head h
  have hne : ¬space0 l = [] := by rw [hs]; simp
  have hcom : parse_comment (space0 l) = none := by
    rw [hs]; exact parse_comment_fail _ hc
  simp [parse_line, hne, hcom, h]

theorem parse_line_of_edge {l r : Str} {e : ParsedEdge}
    (hn : parse_node (space0 l) = none)
    (h : parse_edge (space0 l) = some (r, e)) :
    parse_line l = some (r, .edge e) := by
  obtain ⟨c, s2, hs, hc⟩ := parse_edge_head h
  have hne : ¬space0 l = [] := by rw [hs]; simp
  have hcom : parse_comment (space0 l) = none := by
    rw [hs]; exact parse_comment_fail _ hc
  simp [parse_line, hne, hcom, hn, h]

theorem parse_line_node_inv {l r : Str} {n : ParsedNode}
    (h : parse_line l = some (r, .node n)) :
    parse_node (space0 l) = some (r, n) := by
  rw [parse_line] at h
  by_cases hb : space0 l = []
  · simp [hb] at h
  · rw [if_neg hb] at h
    cases hcom : parse_comment (space0 l) with
    | some v => cases v; rw [hcom] at h; simp at h
    | none =>
      rw [hcom] at h
      cases hn : parse_node (space0 l) with
      | some v =>
        cases v with
        | mk r2 n2 =>
          rw [hn] at h
          simp only [Option.some.injEq, Prod.mk.injEq, ParsedLine.node.injEq] at h
          rw [h.1, h.2]
      | none =>
        rw [hn] at h
        cases he : parse_edge (space0 l) with
        | some v => cases v; rw [he] at h; simp at h
        | none => rw [he] at h; simp at h

theorem parse_line_edge_inv {l r : Str} {e : ParsedEdge}
    (h : parse_line l = some (r, .edge e)) :
    parse_node (space0 l) = none ∧ parse_edge (space0 l) = some (r, e) := by
  rw [parse_line] at h
  by_cases hb : space0 l = []
  · simp [hb] at h
  · rw [if_neg hb] at h
    cases hcom : parse_comment (space0 l) with
    | some v => cases v; rw [hcom] at h; simp at h
    | none =>
      rw [hcom] at h
      cases hn : parse_node (space0 l) with
      | some v => cases v; rw [hn] at h; simp at h
      | none =>
        rw [hn] at h
        cases he : parse_edge (space0 l) with
        | some v =>
          cases v with
          | mk r2 e2 =>
            rw [he] at h
            simp only [Option.some.injEq, Prod.mk.injEq, ParsedLine.edge.injEq] at h
            exact ⟨rfl, by rw [h.1, h.2]⟩
        | none => rw [he] at h; simp at h

/-! ### Line splitting and joining -/

theorem splitNl_no_nl (s : Str) : ∀ p ∈ splitNl s, ('\n' : Char) ∉ p := by
  induction s with
  | nil => simp [splitNl]
  | cons c cs ih =>
    by_cases hc : c = '\n'
    · simp only [splitNl, if_pos hc]
      intro p hp
      rcases List.mem_cons.mp hp with h | h
      · rw [h]; simp
      · exact ih p h
    · simp only [splitNl, if_neg hc]
      cases hsp : splitNl cs with
      | nil =>
        intro p hp
        simp only [List.mem_singleton] at hp
        rw [hp]
        simp only [List.mem_singleton]
        exact fun e => hc e.symm
      | cons q qs =>
        intro p hp
        rcases List.mem_cons.mp hp with h | h
        · rw [h]
          simp only [List.mem_cons, not_or]
          refine ⟨fun e => hc e.symm, ?_⟩
          exact ih q (by rw [hsp]; simp)
        · exact ih p (by rw [hsp]; simp [h])

theorem splitNl_of_no_nl {s : Str} (h : ('\n' : Char) ∉ s) : splitNl s = [s] := by
  induction s with
  | nil => rfl
  | cons c cs ih =>
    have hc : ¬c = '\n' := fun e => h (by simp [e])
    have := ih fun hm => h (by simp [hm])
    simp [splitNl, hc, this]

theorem splitNl_append_nl {l : Str} (t : Str) (h : ('\n' : Char) ∉ l) :
    splitNl (l ++ '\n' :: t) = l :: splitNl t := by
  induction l with
  | nil => simp [splitNl]
  | cons c l ih =>
    have hc : ¬c = '\n' := fun e => h (by simp [e])
    have := ih fun hm => h (by simp [hm])
    simp [splitNl, hc, this]

theorem stripCr_eq {l : Str} (h : l.getLast? ≠ some '\r') : stripCr l = l := by
  simp [stripCr, h]

theorem rustLines_single {s : Str} (h1 : ('\n' : Char) ∉ s) (h2 : s ≠ []) :
    rustLines s = [s] := by
  rw [rustLines, splitNl_of_no_nl h1]
  simp [linesAux, h2]

theorem linesAux_id {ps : List Str}
    (h : ∀ p ∈ ps, p ≠ [] ∧ p.getLast? ≠ some '\r') : linesAux ps = ps := by
  induction ps with
  | nil => rfl
  | cons p ps ih =>
    cases ps with
    | nil => simp [linesAux, (h p (by simp)).1]
    | cons q qs =>
      have hp := stripCr_eq (h p (by simp)).2
      have h2 := ih fun x hx => h x (by simp [hx])
      have hstep : linesAux (p :: q :: qs) = stripCr p :: linesAux (q :: qs) := rfl
      rw [hstep, hp, h2]

theorem splitNl_join {ls : List Str} (h : ∀ l ∈ ls, ('\n' : Char) ∉ l)
    (h2 : ls ≠ []) : splitNl (joinNl ls) = ls := by
  induction ls with
  | nil => exact absurd rfl h2
  | cons l ls ih =>
    cases ls with
    | nil => exact splitNl_of_no_nl (h l (by simp))
    | cons l2 ls2 =>
      have step : joinNl (l :: l2 :: ls2) = l ++ '\n' :: joinNl (l2 :: ls2) := rfl
      rw [step, splitNl_append_nl _ (h l (by simp)),
        ih (fun x hx => h x (by simp [hx])) (by simp)]

theorem rustLines_join {ls : List Str}
    (h : ∀ l ∈ ls, ('\n' : Char) ∉ l ∧ l ≠ [] ∧ l.getLast? ≠ some '\r') :
    rustLines (joinNl ls) = ls := by
  cases ls with
  | nil => rfl
  | cons l ls =>
    rw [rustLines, splitNl_join (fun x hx => (h x hx).1) (by simp)]
    exact linesAux_id fun p hp => ⟨(h p hp).2.1, (h p hp).2.2⟩

theorem linesAux_no_nl {ps : List Str} (h : ∀ p ∈ ps, ('\n' : Char) ∉ p) :
    ∀ q ∈ linesAux ps, ('\n' : Char) ∉ q := by
  induction ps with
  | nil => simp [linesAux]
  | cons p ps ih =>
    cases ps with
    | nil =>
      intro q hq
      simp only [linesAux] at hq
      by_cases hp : p = []
      · rw [if_pos hp] at hq; cases hq
      · rw [if_neg hp] at hq
        simp only [List.mem_singleton] at hq
        rw [hq]; exact h p (by simp)
    | cons r rs =>
      intro q hq
      simp only [linesAux] at hq
      rcases List.mem_cons.mp hq with h1 | h1
      · rw [h1, stripCr]
        by_cases hl : p.getLast? = some '\r'
        · rw [if_pos hl]
          intro hm
          exact h p (by simp) ((List.dropLast_sublist p).mem hm)
        · rw [if_neg hl]; exact h p (by simp)
      · exact ih (fun x hx => h x (by simp [hx])) q h1

theorem rustLines_no_nl (s : Str) : ∀ l ∈ rustLines s, ('\n' : Char) ∉ l :=
  linesAux_no_nl (splitNl_no_nl s)

/-! ### Output-field properties of the statement parsers -/

theorem parse_node_props {s r : Str} {n : ParsedNode}
    (h : parse_node s = some (r, n)) :
    isValidId n.id = true ∧ (']' : Char) ∉ n.desc ∧ ∀ c ∈ n.desc, c ∈ s := by
  rw [parse_node] at h
  split at h
  · cases h
  · rename_i s1 id hid
    split at h
    · cases h
    · rename_i s2 htag
      split at h
      · cases h
      · rename_i s3 desc htu
        split at h
        · cases h
        · rename_i s4 htag2
          simp only [Option.some.injEq, Prod.mk.injEq] at h
          obtain ⟨_, hn⟩ := h
          obtain ⟨hs, _, _⟩ := parse_id_eq_some hid
          have hs1 : s1 = ['['] ++ s2 := tag_eq_some htag
          obtain ⟨r2, _, hs2, hnotin⟩ := takeUntil_eq_some htu
          rw [← hn]
          refine ⟨parse_id_valid hid, hnotin, ?_⟩
          intro c hc
          rw [hs, hs1, hs2]
          simp [hc]

theorem arrowTok_eq_some {s r : Str} {d : Bool} (h : arrowTok s = some (r, d)) :
    s = arrowStr d ++ r := by
  rw [arrowTok] at h
  cases h1 : tag ['-', '-', '>'] s with
  | some r1 =>
    rw [h1] at h
    simp only [Option.some.injEq, Prod.mk.injEq] at h
    rw [← h.2, ← h.1, arrowStr]
    simpa using tag_eq_some h1
  | none =>
    rw [h1] at h
    cases h2 : tag ['<', '-', '-', '>'] s with
    | none => rw [h2] at h; cases h
    | some r2 =>
      rw [h2] at h
      simp only [Option.some.injEq, Prod.mk.injEq] at h
      rw [← h.2, ← h.1, arrowStr]
      simpa using tag_eq_some h2

theorem parse_edge_desc_eq_some {s r d : Str}
    (h : parse_edge_desc s = some (r, d)) :
    s = '|' :: (d ++ '|' :: r) ∧ ('|' : Char) ∉ d := by
  rw [parse_edge_desc] at h
  split at h
  · cases h
  · rename_i s1 h1
    split at h
    · cases h
    · rename_i s2 d2 h2
      split at h
      · cases h
      · rename_i s3 h3
        simp only [Option.some.injEq, Prod.mk.injEq] at h
        obtain ⟨r2, hr2, hs1, hnotin⟩ := takeUntil_eq_some h2
        have hs : s = ['|'] ++ s1 := tag_eq_some h1
        have hs2 : s2 = ['|'] ++ s3 := tag_eq_some h3
        rw [hr2] at hs2
        simp only [List.cons_append, List.nil_append, List.cons.injEq] at hs2
        rw [← h.2, ← h.1]
        constructor
        · rw [hs, hs1, hs2.2]
          simp
        · exact hnotin

theorem parse_edge_props {s r : Str} {e : ParsedEdge}
    (h : parse_edge s = some (r, e)) :
    isValidId e.src = true ∧ isValidId e.dest = true ∧
      ('|' : Char) ∉ e.desc ∧ ∀ c ∈ e.desc, c ∈ s := by
  rw [parse_edge] at h
  split at h
  · cases h
  · rename_i s1 src hid
    split at h
    · cases h
    · rename_i s2 dir hat
      obtain ⟨hs, _, _⟩ := parse_id_eq_some hid
      have hmem2 : ∀ c, c ∈ s2 → c ∈ s := by
        intro c hc
        have h1 : c ∈ space0 s1 := by
          rw [arrowTok_eq_some hat]; simp [hc]
        have h2 : c ∈ s1 := mem_of_mem_space0 h1
        rw [hs]; simp [h2]
      cases hed : parse_edge_desc (space0 s2) with
      | some v3 =>
        cases v3 with
        | mk s4 d =>
          have hod : optDesc (space0 s2) = (s4, some d) := by
            rw [optDesc, hed]
          rw [hod] at h
          simp only at h
          split at h
          · cases h
          · rename_i s5 dest hid2
            simp only [Option.some.injEq, Prod.mk.injEq] at h
            obtain ⟨hded, hnotin⟩ := parse_edge_desc_eq_some hed
            rw [← h.2]
            refine ⟨parse_id_valid hid, parse_id_valid hid2, hnotin, ?_⟩
            intro c hc
            have hc2 : c ∈ d := by simpa using hc
            apply hmem2
            apply mem_of_mem_space0
            rw [hded]
            simp [hc2]
      | none =>
        have hod : optDesc (space0 s2) = (space0 s2, none) := by
          rw [optDesc, hed]
        rw [hod] at h
        simp only at h
        split at h
        · cases h
        · rename_i s5 dest hid2
          simp only [Option.some.injEq, Prod.mk.injEq] at h
          rw [← h.2]
          exact ⟨parse_id_valid hid, parse_id_valid hid2, by simp, by simp⟩

/-! ### The builder on serialized lines -/

theorem parseLines_nil (st : BState) : parseLines st [] = .ok ⟨st.nodes, st.edges⟩ :=
  rfl

theorem parseLines_cons (st : BState) (l : Str) (ls : List Str) :
    parseLines st (l :: ls) =
      match stepLine st l with
      | .ok st2 => parseLines st2 ls
      | .err m => .err m
      | .panic => .panic := rfl

theorem validId_nodeId (i : Nat) : isValidId (nodeId i) = true := by
  apply isValidId_iff.mpr
  refine ⟨by simp [nodeId], ?_⟩
  intro c hc
  rw [List.eq_of_mem_replicate hc]
  decide

theorem validId_goodLabel {w : Str} (h : isValidId w = true) : goodLabel w := by
  obtain ⟨_, hc⟩ := isValidId_iff.mp h
  constructor
  · intro hm
    exact absurd (hc _ hm) (by decide)
  · intro hm
    exact absurd (hc _ hm) (by decide)

theorem noSpHead_append_valid {w : Str} (h : isValidId w = true) (z : Str) :
    noSpHead (w ++ z) = true := by
  obtain ⟨h0, hc⟩ := isValidId_iff.mp h
  cases w with
  | nil => exact absurd rfl h0
  | cons c cs => exact noSpHead_cons _ (idChar_not_sp (hc c (by simp)))

theorem parse_line_nodeLine (i : Nat) {lbl : Str} (h : goodLabel lbl) :
    parse_line (nodeLine i lbl) = some ([], .node ⟨nodeId i, lbl⟩) := by
  apply parse_line_of_node
  have hsp : space0 (nodeLine i lbl) = nodeLine i lbl := by
    apply space0_eq_of_noSp
    rw [nodeLine]
    exact noSpHead_append_valid (validId_nodeId i) _
  rw [hsp, nodeLine]
  exact parse_node_stmt [] (validId_nodeId i) h.1

theorem edgeLine_shape (e : ParsedEdge) :
    edgeLine e =
      e.src ++ ' ' :: (arrowStr e.directed ++ ' ' :: '|' :: (e.desc ++ '|' :: ' ' :: e.dest)) := by
  simp [edgeLine]

theorem parse_line_edgeLine {e : ParsedEdge} (h : goodEdge e) :
    parse_line (edgeLine e) = some ([], .edge e) := by
  obtain ⟨hsrc, hdest, hpipe, _⟩ := h
  have hsp : space0 (edgeLine e) = edgeLine e := by
    apply space0_eq_of_noSp
    rw [edgeLine_shape]
    exact noSpHead_append_valid hsrc _
  apply parse_line_of_edge
  · rw [hsp, edgeLine_shape]
    exact parse_node_fail _ hsrc (by decide) (by decide)
  · rw [hsp, edgeLine_shape]
    exact parse_edge_stmt_desc e.directed hsrc hdest hpipe

theorem stepLine_nodeLine (st : BState) (i : Nat) {lbl : Str} (h : goodLabel lbl) :
    stepLine st (nodeLine i lbl) = applyNode st ⟨nodeId i, lbl⟩ := by
  rw [stepLine, parse_line_nodeLine i h]

theorem stepLine_edgeLine (st : BState) {e : ParsedEdge} (h : goodEdge e) :
    stepLine st (edgeLine e) = .ok (applyEdge st e) := by
  rw [stepLine, parse_line_edgeLine h]

/-- Processing the serialized edge lines never touches the label list and
appends exactly the serialized edges. -/
theorem parseLines_edges {es : List ParsedEdge} (h : ∀ e ∈ es, goodEdge e) :
    ∀ st, parseLines st (es.map edgeLine) = .ok ⟨st.nodes, st.edges ++ es⟩ := by
  induction es with
  | nil => intro st; simp [parseLines_nil]
  | cons e es ih =>
    intro st
    rw [List.map_cons, parseLines_cons, stepLine_edgeLine st (h e (by simp))]
    show parseLines (applyEdge st e) (es.map edgeLine) = .ok ⟨st.nodes, st.edges ++ e :: es⟩
    rw [ih fun x hx => h x (by simp [hx])]
    simp [applyEdge]

/-- Processing the serialized node lines (with fresh invented identifiers)
appends exactly the serialized labels, touching neither the edge list nor
the outcome beyond the identifier table. -/
theorem parseLines_nodes {lbls : List Str} (h : ∀ l ∈ lbls, goodLabel l) :
    ∀ (k : Nat) (st : BState) (rest : List Str), st.nodes.length = k →
      (∀ i, k ≤ i → mapFind st.node_map (nodeId i) = none) →
      ∃ m2, parseLines st (nodeLinesFrom k lbls ++ rest) =
        parseLines ⟨st.nodes ++ lbls, st.edges, m2⟩ rest := by
  induction lbls with
  | nil =>
    intro k st rest _ _
    exact ⟨st.node_map, by simp [nodeLinesFrom]⟩
  | cons lbl lbls ih =>
    intro k st rest hlen hmap
    rw [nodeLinesFrom, List.cons_append, parseLines_cons,
      stepLine_nodeLine st k (h lbl (by simp))]
    have happ : applyNode st ⟨nodeId k, lbl⟩ =
        .ok ⟨st.nodes ++ [lbl], st.edges, (nodeId k, st.nodes.length) :: st.node_map⟩ := by
      rw [applyNode]
      simp [hmap k (le_refl k)]
    rw [happ]
    have hmap2 : ∀ i, k + 1 ≤ i →
        mapFind ((nodeId k, st.nodes.length) :: st.node_map) (nodeId i) = none := by
      intro i hi
      rw [mapFind]
      have hne : ¬nodeId k = nodeId i := by
        intro e
        have := congrArg List.length e
        simp only [nodeId, List.length_replicate] at this
        omega
      rw [if_neg hne]
      exact hmap i (by omega)
    obtain ⟨m2, hm⟩ := ih (fun x hx => h x (by simp [hx])) (k + 1)
      ⟨st.nodes ++ [lbl], st.edges, (nodeId k, st.nodes.length) :: st.node_map⟩
      rest (by simp [hlen]) hmap2
    refine ⟨m2, ?_⟩
    show parseLines ⟨st.nodes ++ [lbl], st.edges, (nodeId k, st.nodes.length) :: st.node_map⟩
        (nodeLinesFrom (k + 1) lbls ++ rest) = _
    rw [hm]
    congr 1
    simp

/-! ### Goodness invariant of every successfully parsed graph -/

theorem parseLines_good (ls : List Str) :
    ∀ st g, (∀ l ∈ ls, ('\n' : Char) ∉ l) →
      (∀ x ∈ st.nodes, goodLabel x) → (∀ e ∈ st.edges, goodEdge e) →
      parseLines st ls = .ok g →
      (∀ x ∈ g.nodes, goodLabel x) ∧ (∀ e ∈ g.edges, goodEdge e) := by
  induction ls with
  | nil =>
    intro st g _ h1 h2 hok
    rw [parseLines_nil] at hok
    cases hok
    exact ⟨h1, h2⟩
  | cons l ls ih =>
    intro st g hnl h1 h2 hok
    rw [parseLines_cons] at hok
    cases hstep : stepLine st l with
    | err m => rw [hstep] at hok; simp at hok
    | panic => rw [hstep] at hok; simp at hok
    | ok st2 =>
      rw [hstep] at hok
      replace hok : parseLines st2 ls = .ok g := hok
      have hgood : (∀ x ∈ st2.nodes, goodLabel x) ∧ (∀ e ∈ st2.edges, goodEdge e) := by
        rw [stepLine] at hstep
        cases hpl : parse_line l with
        | none =>
          rw [hpl] at hstep
          replace hstep : StepRes.err (nomErrMsg l) = .ok st2 := hstep
          cases hstep
        | some v =>
          cases v with
          | mk rest pl =>
            rw [hpl] at hstep
            cases pl with
            | blank =>
              replace hstep : StepRes.ok st = .ok st2 := hstep
              cases hstep
              exact ⟨h1, h2⟩
            | comment c =>
              replace hstep : StepRes.ok st = .ok st2 := hstep
              cases hstep
              exact ⟨h1, h2⟩
            | error =>
              replace hstep : StepRes.err (lineErrMsg rest) = .ok st2 := hstep
              cases hstep
            | node n =>
              replace hstep : applyNode st n = .ok st2 := hstep
              have hinv := parse_line_node_inv hpl
              obtain ⟨hvid, hnotin, hsub⟩ := parse_node_props hinv
              have hdesc_nl : ('\n' : Char) ∉ n.desc := fun hm =>
                (hnl l (by simp)) (mem_of_mem_space0 (hsub _ hm))
              rw [applyNode] at hstep
              cases hmf : mapFind st.node_map n.id with
              | some i =>
                rw [hmf] at hstep
                replace hstep : (if i < st.nodes.length then
                    StepRes.ok ⟨st.nodes.set i n.id ++ [n.desc], st.edges, st.node_map⟩
                  else StepRes.panic) = .ok st2 := hstep
                by_cases hi : i < st.nodes.length
                · rw [if_pos hi] at hstep
                  replace hstep : StepRes.ok
                      ⟨st.nodes.set i n.id ++ [n.desc], st.edges, st.node_map⟩ = .ok st2 := hstep
                  cases hstep
                  refine ⟨?_, h2⟩
                  intro x hx
                  simp only [List.mem_append, List.mem_singleton] at hx
                  rcases hx with hx | hx
                  · rcases List.mem_or_eq_of_mem_set hx with h3 | h3
                    · exact h1 x h3
                    · rw [h3]; exact validId_goodLabel hvid
                  · rw [hx]; exact ⟨hnotin, hdesc_nl⟩
                · rw [if_neg hi] at hstep
                  replace hstep : StepRes.panic = .ok st2 := hstep
                  cases hstep
              | none =>
                rw [hmf] at hstep
                replace hstep : StepRes.ok
                    ⟨st.nodes ++ [n.desc], st.edges,
                      (n.id, st.nodes.length) :: st.node_map⟩ = .ok st2 := hstep
                cases hstep
                refine ⟨?_, h2⟩
                intro x hx
                simp only [List.mem_append, List.mem_singleton] at hx
                rcases hx with hx | hx
                · exact h1 x hx
                · rw [hx]; exact ⟨hnotin, hdesc_nl⟩
            | edge e =>
              replace hstep : StepRes.ok (applyEdge st e) = .ok st2 := hstep
              cases hstep
              have hinv := parse_line_edge_inv hpl
              obtain ⟨hvs, hvd, hpipe, hsub⟩ := parse_edge_props hinv.2
              have hnl2 : ('\n' : Char) ∉ e.desc := fun hm =>
                (hnl l (by simp)) (mem_of_mem_space0 (hsub _ hm))
              constructor
              · intro x hx
                exact h1 x hx
              · intro x hx
                have hx2 : x ∈ st.edges ++ [e] := hx
                simp only [List.mem_append, List.mem_singleton] at hx2
                rcases hx2 with hx2 | hx2
                · exact h2 x hx2
                · rw [hx2]; exact ⟨hvs, hvd, hpipe, hnl2⟩
      exact ih st2 g (fun x hx => hnl x (by simp [hx])) hgood.1 hgood.2 hok

/-! ### The serialized text splits back into exactly the serialized lines -/

theorem nodeLinesFrom_mem {l : Str} {k : Nat} {lbls : List Str}
    (h : l ∈ nodeLinesFrom k lbls) : ∃ i lbl, lbl ∈ lbls ∧ l = nodeLine i lbl := by
  induction lbls generalizing k with
  | nil => simp [nodeLinesFrom] at h
  | cons lbl lbls ih =>
    rw [nodeLinesFrom] at h
    rcases List.mem_cons.mp h with h1 | h1
    · exact ⟨k, lbl, by simp, h1⟩
    · obtain ⟨i, lbl2, hm, he⟩ := ih h1
      exact ⟨i, lbl2, by simp [hm], he⟩

theorem nodeLine_good {i : Nat} {lbl : Str} (h : goodLabel lbl) :
    ('\n' : Char) ∉ nodeLine i lbl ∧ nodeLine i lbl ≠ [] ∧
      (nodeLine i lbl).getLast? ≠ some '\r' := by
  refine ⟨?_, ?_, ?_⟩
  · intro hm
    rw [nodeLine] at hm
    rcases List.mem_append.mp hm with hm | hm
    · exact absurd (List.eq_of_mem_replicate hm) (by decide)
    · rcases List.mem_cons.mp hm with hm | hm
      · exact absurd hm (by decide)
      · rcases List.mem_append.mp hm with hm | hm
        · exact h.2 hm
        · exact absurd (List.mem_singleton.mp hm) (by decide)
  · rw [nodeLine]
    simp [nodeId]
  · have hsh : nodeLine i lbl = (nodeId i ++ '[' :: lbl) ++ [']'] := by
      simp [nodeLine]
    rw [hsh, List.getLast?_concat]
    exact by decide

theorem nl_not_mem_arrow (d : Bool) : ('\n' : Char) ∉ arrowStr d := by
  cases d <;> decide

theorem edgeLine_good {e : ParsedEdge} (h : goodEdge e) :
    ('\n' : Char) ∉ edgeLine e ∧ edgeLine e ≠ [] ∧
      (edgeLine e).getLast? ≠ some '\r' := by
  obtain ⟨hs, hd, hp, hnl⟩ := h
  obtain ⟨hs0, hsc⟩ := isValidId_iff.mp hs
  obtain ⟨hd0, hdc⟩ := isValidId_iff.mp hd
  refine ⟨?_, ?_, ?_⟩
  · intro hm
    rw [edgeLine_shape] at hm
    rcases List.mem_append.mp hm with hm | hm
    · exact absurd (hsc _ hm) (by decide)
    · rcases List.mem_cons.mp hm with hm | hm
      · exact absurd hm (by decide)
      · rcases List.mem_append.mp hm with hm | hm
        · exact nl_not_mem_arrow e.directed hm
        · rcases List.mem_cons.mp hm with hm | hm
          · exact absurd hm (by decide)
          · rcases List.mem_cons.mp hm with hm | hm
            · exact absurd hm (by decide)
            · rcases List.mem_append.mp hm with hm | hm
              · exact hnl hm
              · rcases List.mem_cons.mp hm with hm | hm
                · exact absurd hm (by decide)
                · rcases List.mem_cons.mp hm with hm | hm
                  · exact absurd hm (by decide)
                  · exact absurd (hdc _ hm) (by decide)
  · rw [edgeLine_shape]
    cases hsv : e.src with
    | nil => exact absurd hsv hs0
    | cons c cs => simp
  · have hsh : edgeLine e =
        (e.src ++ ' ' :: arrowStr e.directed ++ ' ' :: '|' :: e.desc ++ ['|', ' ']) ++ e.dest := by
      simp [edgeLine]
    rw [hsh, List.getLast?_append_of_ne_nil _ hd0, List.getLast?_eq_getLast _ hd0]
    intro he
    have h1 : e.dest.getLast hd0 = '\r' := by
      simpa using he
    have h2 := List.getLast_mem hd0
    rw [h1] at h2
    exact absurd (hdc _ h2) (by decide)

theorem serialize_lines_eq {g : Graph}
    (hn : ∀ x ∈ g.nodes, goodLabel x) (he : ∀ e ∈ g.edges, goodEdge e) :
    rustLines (trivialSerialize g) =
      nodeLinesFrom 0 g.nodes ++ g.edges.map edgeLine := by
  rw [trivialSerialize]
  apply rustLines_join
  intro l hl
  rcases List.mem_append.mp hl with hl | hl
  · obtain ⟨i, lbl, hm, rfl⟩ := nodeLinesFrom_mem hl
    exact nodeLine_good (hn lbl hm)
  · obtain ⟨e, hm, rfl⟩ := List.mem_map.mp hl
    exact edgeLine_good (he e hm)

/-- Every successfully parsed graph reparses from its trivial serialization
to exactly the same graph. -/
theorem roundtrip {s : Str} {g : Graph} (h : parse_graph s = .ok g) :
    parse_graph (trivialSerialize g) = .ok g := by
  have h2 : parseLines ⟨[], [], []⟩ (rustLines s) = .ok g := h
  obtain ⟨hn, he⟩ := parseLines_good (rustLines s) ⟨[], [], []⟩ g
    (rustLines_no_nl s) (by simp) (by simp) h2
  rw [parse_graph, serialize_lines_eq hn he]
  obtain ⟨m2, hm⟩ := parseLines_nodes hn 0 ⟨[], [], []⟩
    (g.edges.map edgeLine) rfl (fun i _ => rfl)
  rw [hm, parseLines_edges he]
  simp

theorem nl_not_mem_of_valid {w : Str} (h : isValidId w = true) :
    ('\n' : Char) ∉ w := fun hm =>
  absurd ((isValidId_iff.mp h).2 _ hm) (by decide)

theorem notLineEnding_total {s : Str} (h : ('\r' : Char) ∉ s) :
    ∃ r p, notLineEnding s = some (r, p) := by
  induction s with
  | nil => exact ⟨[], [], rfl⟩
  | cons c cs ih =>
    by_cases hc : c = '\n'
    · subst hc
      exact ⟨'\n' :: cs, [], by simp [notLineEnding]⟩
    · have hcr : ¬c = '\r' := fun e => h (by simp [e])
      obtain ⟨r, p, hp⟩ := ih fun hm => h (by simp [hm])
      refine ⟨r, c :: p, ?_⟩
      rw [notLineEnding, if_neg hc, if_neg hcr, hp]

/-! ## Claim theorems -/

/-- Claim C1 (code bug, evaluation at the failing input): parsing
`a[x]` then `a[y]` does not give a single node labelled y.  The code
(parse.rs lines 128-135) overwrites slot 0 with the identifier string a
(`nodes[id] = node.id.clone()`) and then unconditionally appends the new
label, so the label list becomes [a, y] with two entries. -/
theorem c1_redeclare_eval :
    from_str "a[x]\na[y]" = .ok ⟨["a".toList, "y".toList], []⟩ := by decide

/-- Claim C2 (code bug, evaluation at the failing input): the edge line
`X --> |go| Y` does not auto-create its endpoints as empty-labelled nodes.
The code (parse.rs lines 137-143) inserts map entries for X and Y but never
pushes empty labels, so the label list stays empty (and both identifiers
receive the same index 0). -/
theorem c2_autocreate_eval :
    from_str "X --> |go| Y\n" =
      .ok ⟨[], [⟨"X".toList, "Y".toList, true, "go".toList⟩]⟩ := by decide

/-- Claim C3 (code bug, evaluation at the failing input): parsing is not
panic-free.  After `X --> Y` registers X with index 0 while the label list
stays empty, the node line `X[a]` reaches the indexed write `nodes[0]` on
an empty vector, an out-of-bounds panic. -/
theorem c3_panic_eval : from_str "X --> Y\nX[a]" = .panic := by decide

/-- Claim C4 (code bug, evaluation at the failing input): fail-fast error
reporting is not reached on every input whose first unparsable line is k.
Here the first line matching no grammar is line 3 (`???`, shown unparsable
in isolation by the second conjunct), yet the parse panics at line 2 and
returns no error value at all. -/
theorem c4_failfast_eval :
    from_str "X --> Y\nX[a]\n???" = .panic ∧
      from_str "???" = .err (lineErrMsg ("???".toList)) := by decide

/-- Claim C5: for every well-formed node line `id[label]` (id a nonempty
alphanumeric identifier, label free of the closing bracket and of line
feeds), parsing the single-line input succeeds with exactly one node whose
label is `label` and no edges. -/
theorem c5_single_node {id lbl : Str} (h1 : isValidId id = true)
    (h2 : (']' : Char) ∉ lbl) (h3 : ('\n' : Char) ∉ lbl) :
    parse_graph (id ++ '[' :: (lbl ++ [']'])) = .ok ⟨[lbl], []⟩ := by
  have hnl : ('\n' : Char) ∉ id ++ '[' :: (lbl ++ [']']) := by
    intro hm
    rcases List.mem_append.mp hm with hm | hm
    · exact nl_not_mem_of_valid h1 hm
    · rcases List.mem_cons.mp hm with hm | hm
      · exact absurd hm (by decide)
      · rcases List.mem_append.mp hm with hm | hm
        · exact h3 hm
        · exact absurd (List.mem_singleton.mp hm) (by decide)
  have hne : (id ++ '[' :: (lbl ++ [']']) : Str) ≠ [] := by
    cases hid : id with
    | nil => exact absurd hid (isValidId_iff.mp h1).1
    | cons c cs => simp
  rw [parse_graph, rustLines_single hnl hne, parseLines_cons]
  have hsp : space0 (id ++ '[' :: (lbl ++ [']'])) = id ++ '[' :: (lbl ++ [']']) :=
    space0_eq_of_noSp (noSpHead_append_valid h1 _)
  have hpl : parse_line (id ++ '[' :: (lbl ++ [']'])) = some ([], .node ⟨id, lbl⟩) := by
    apply parse_line_of_node
    rw [hsp]
    exact parse_node_stmt [] h1 h2
  rw [stepLine, hpl]
  rfl

/-- Claim C5 witness: the theorem applied at the concrete node line
`abc[hi there]`. -/
theorem c5_single_node_witness :
    isValidId ("abc".toList) = true ∧ (']' : Char) ∉ "hi there".toList ∧
      parse_graph ("abc".toList ++ '[' :: ("hi there".toList ++ [']'])) =
        .ok ⟨["hi there".toList], []⟩ :=
  ⟨by decide, by decide, c5_single_node (by decide) (by decide) (by decide)⟩

/-- Claim C6: for all identifiers src and dest, the single line
`src --> dest` parses to exactly one directed edge with empty label, and
`src <--> |d| dest` (d free of pipes and line feeds) parses to exactly one
undirected edge labelled d. -/
theorem c6_edge_lines (src dest d : Str) (h1 : isValidId src = true)
    (h2 : isValidId dest = true) (h3 : ('|' : Char) ∉ d)
    (h4 : ('\n' : Char) ∉ d) :
    parse_graph (src ++ " --> ".toList ++ dest) =
        .ok ⟨[], [⟨src, dest, true, []⟩]⟩ ∧
      parse_graph (src ++ " <--> |".toList ++ d ++ "| ".toList ++ dest) =
        .ok ⟨[], [⟨src, dest, false, d⟩]⟩ := by
  constructor
  · have hsh : (src ++ " --> ".toList ++ dest : Str) =
        src ++ ' ' :: (arrowStr true ++ ' ' :: dest) := by
      rw [show (" --> ".toList : Str) = ' ' :: (arrowStr true ++ [' ']) by decide]
      simp
    rw [hsh]
    have hnl : ('\n' : Char) ∉ src ++ ' ' :: (arrowStr true ++ ' ' :: dest) := by
      intro hm
      rcases List.mem_append.mp hm with hm | hm
      · exact nl_not_mem_of_valid h1 hm
      · rcases List.mem_cons.mp hm with hm | hm
        · exact absurd hm (by decide)
        · rcases List.mem_append.mp hm with hm | hm
          · exact nl_not_mem_arrow true hm
          · rcases List.mem_cons.mp hm with hm | hm
            · exact absurd hm (by decide)
            · exact nl_not_mem_of_valid h2 hm
    have hne : (src ++ ' ' :: (arrowStr true ++ ' ' :: dest) : Str) ≠ [] := by
      cases hid : src with
      | nil => exact absurd hid (isValidId_iff.mp h1).1
      | cons c cs => simp
    rw [parse_graph, rustLines_single hnl hne, parseLines_cons]
    have hsp : space0 (src ++ ' ' :: (arrowStr true ++ ' ' :: dest)) =
        src ++ ' ' :: (arrowStr true ++ ' ' :: dest) :=
      space0_eq_of_noSp (noSpHead_append_valid h1 _)
    have hpl : parse_line (src ++ ' ' :: (arrowStr true ++ ' ' :: dest)) =
        some ([], .edge ⟨src, dest, true, []⟩) := by
      apply parse_line_of_edge
      · rw [hsp]
        exact parse_node_fail _ h1 (by decide) (by decide)
      · rw [hsp]
        exact parse_edge_stmt_nodesc true h1 h2
    rw [stepLine, hpl]
    rfl
  · have hsh : (src ++ " <--> |".toList ++ d ++ "| ".toList ++ dest : Str) =
        src ++ ' ' :: (arrowStr false ++ ' ' :: '|' :: (d ++ '|' :: ' ' :: dest)) := by
      rw [show (" <--> |".toList : Str) = ' ' :: (arrowStr false ++ [' ', '|']) by decide,
        show ("| ".toList : Str) = ['|', ' '] by decide]
      simp
    rw [hsh]
    have hnl : ('\n' : Char) ∉
        src ++ ' ' :: (arrowStr false ++ ' ' :: '|' :: (d ++ '|' :: ' ' :: dest)) := by
      intro hm
      rcases List.mem_append.mp hm with hm | hm
      · exact nl_not_mem_of_valid h1 hm
      · rcases List.mem_cons.mp hm with hm | hm
        · exact absurd hm (by decide)
        · rcases List.mem_append.mp hm with hm | hm
          · exact nl_not_mem_arrow false hm
          · rcases List.mem_cons.mp hm with hm | hm
            · exact absurd hm (by decide)
            · rcases List.mem_cons.mp hm with hm | hm
              · exact absurd hm (by decide)
              · rcases List.mem_append.mp hm with hm | hm
                · exact h4 hm
                · rcases List.mem_cons.mp hm with hm | hm
                  · exact absurd hm (by decide)
                  · rcases List.mem_cons.mp hm with hm | hm
                    · exact absurd hm (by decide)
                    · exact nl_not_mem_of_valid h2 hm
    have hne : (src ++ ' ' :: (arrowStr false ++ ' ' :: '|' :: (d ++ '|' :: ' ' :: dest)) : Str) ≠ [] := by
      cases hid : src with
      | nil => exact absurd hid (isValidId_iff.mp h1).1
      | cons c cs => simp
    rw [parse_graph, rustLines_single hnl hne, parseLines_cons]
    have hsp : space0 (src ++ ' ' :: (arrowStr false ++ ' ' :: '|' :: (d ++ '|' :: ' ' :: dest))) =
        src ++ ' ' :: (arrowStr false ++ ' ' :: '|' :: (d ++ '|' :: ' ' :: dest)) :=
      space0_eq_of_noSp (noSpHead_append_valid h1 _)
    have hpl : parse_line (src ++ ' ' :: (arrowStr false ++ ' ' :: '|' :: (d ++ '|' :: ' ' :: dest))) =
        some ([], .edge ⟨src, dest, false, d⟩) := by
      apply parse_line_of_edge
      · rw [hsp]
        exact parse_node_fail _ h1 (by decide) (by decide)
      · rw [hsp]
        exact parse_edge_stmt_desc false h1 h2 h3
    rw [stepLine, hpl]
    rfl

/-- Claim C6 witness: the theorem applied at `a --> b` and
`a <--> |go| b`. -/
theorem c6_edge_lines_witness :
    (isValidId ("a".toList) = true ∧ isValidId ("b".toList) = true ∧
        ('|' : Char) ∉ "go".toList) ∧
      parse_graph ("a".toList ++ " --> ".toList ++ "b".toList) =
        .ok ⟨[], [⟨"a".toList, "b".toList, true, []⟩]⟩ ∧
      parse_graph ("a".toList ++ " <--> |".toList ++ "go".toList ++ "| ".toList ++ "b".toList) =
        .ok ⟨[], [⟨"a".toList, "b".toList, false, "go".toList⟩]⟩ :=
  ⟨⟨by decide, by decide, by decide⟩,
    (c6_edge_lines ("a".toList) ("b".toList) ("go".toList)
      (by decide) (by decide) (by decide) (by decide)).1,
    (c6_edge_lines ("a".toList) ("b".toList) ("go".toList)
      (by decide) (by decide) (by decide) (by decide)).2⟩

/-- Claim C7: every Graph produced by a successful parse, serialized by the
trivial serializer (one `id[label]` line per node with invented identifiers,
one `src --> |label| dest` / `src <--> |label| dest` line per edge) and
parsed again, reproduces an equivalent Graph — here literally the same
label list and the same edge list. -/
theorem c7_serialize_roundtrip (s : Str) (g : Graph)
    (h : parse_graph s = .ok g) :
    parse_graph (trivialSerialize g) = .ok g := roundtrip h

/-- Claim C7 witness: the round trip applied to the graph parsed from
`a[x]` + `a --> b`. -/
theorem c7_serialize_roundtrip_witness :
    parse_graph ("a[x]\na --> b".toList) =
        .ok ⟨["x".toList], [⟨"a".toList, "b".toList, true, []⟩]⟩ ∧
      parse_graph (trivialSerialize ⟨["x".toList], [⟨"a".toList, "b".toList, true, []⟩]⟩) =
        .ok ⟨["x".toList], [⟨"a".toList, "b".toList, true, []⟩]⟩ :=
  ⟨by decide, c7_serialize_roundtrip ("a[x]\na --> b".toList) _ (by decide)⟩

/-- Claim C8: a line whose prefix (after leading spaces/tabs) parses as a
node or edge statement is accepted with that classification whatever
trailing text r remains, and the builder action on the line depends only on
the parsed statement, not on r. -/
theorem c8_trailing_accepted :
    (∀ (l r : Str) (n : ParsedNode) (st : BState),
        parse_node (space0 l) = some (r, n) →
          parse_line l = some (r, .node n) ∧ stepLine st l = applyNode st n) ∧
      (∀ (l r : Str) (e : ParsedEdge) (st : BState),
        parse_node (space0 l) = none → parse_edge (space0 l) = some (r, e) →
          parse_line l = some (r, .edge e) ∧
            stepLine st l = .ok (applyEdge st e)) := by
  constructor
  · intro l r n st h
    have hpl := parse_line_of_node h
    exact ⟨hpl, by rw [stepLine, hpl]⟩
  · intro l r e st hn h
    have hpl := parse_line_of_edge hn h
    exact ⟨hpl, by rw [stepLine, hpl]⟩

/-- Claim C8 witness: a node line with trailing garbage `a[x] trailing ]]`
and an edge line with trailing garbage `b --> c junk`. -/
theorem c8_trailing_accepted_witness :
    parse_line ("a[x] trailing ]]".toList) =
        some (" trailing ]]".toList, .node ⟨"a".toList, "x".toList⟩) ∧
      stepLine ⟨[], [], []⟩ ("b --> c junk".toList) =
        .ok (applyEdge ⟨[], [], []⟩ ⟨"b".toList, "c".toList, true, []⟩) :=
  ⟨(c8_trailing_accepted.1 ("a[x] trailing ]]".toList) (" trailing ]]".toList)
      ⟨"a".toList, "x".toList⟩ ⟨[], [], []⟩ (by decide)).1,
    (c8_trailing_accepted.2 ("b --> c junk".toList) (" junk".toList)
      ⟨"b".toList, "c".toList, true, []⟩ ⟨[], [], []⟩ (by decide) (by decide)).2⟩

/-- Claim C9 counterexample: a comment line is not immune to its content.
The line `%%\r` starts with the comment marker, yet nom not_line_ending
rejects the lone carriage return, parse_comment fails, and the whole parse
errors out. -/
theorem c9_comment_cr_cex :
    from_str "%%\r" = .err (lineErrMsg ("%%\r".toList)) := by decide

/-- Claim C9 (amended): a line that is blank (only spaces and tabs), or
whose first non-whitespace content begins with `%%` and contains no
carriage return afterwards, leaves the builder state (label list,
identifier table, edge list) unchanged and produces no error. -/
theorem c9_blank_comment_frame (st : BState) (l : Str)
    (h : space0 l = [] ∨
      ((space0 l).take 2 = ['%', '%'] ∧ ('\r' : Char) ∉ (space0 l).drop 2)) :
    stepLine st l = .ok st := by
  rcases h with h | ⟨h1, h2⟩
  · rw [stepLine, parse_line, if_pos h]
  · obtain ⟨rest, hrest⟩ : ∃ rest, space0 l = '%' :: '%' :: rest := by
      cases hsp : space0 l with
      | nil => rw [hsp] at h1; cases h1
      | cons c cs =>
        cases cs with
        | nil => rw [hsp] at h1; simp at h1
        | cons c2 cs2 =>
          rw [hsp] at h1
          simp only [List.take, List.cons.injEq] at h1
          obtain ⟨hc, hc2, -⟩ := h1
          subst hc
          subst hc2
          exact ⟨cs2, rfl⟩
    have hdrop : ('\r' : Char) ∉ rest := by
      rw [hrest] at h2
      simpa using h2
    obtain ⟨r, p, hp⟩ := notLineEnding_total hdrop
    have htag : tag ['%', '%'] ('%' :: '%' :: rest) = some rest :=
      tag_append ['%', '%'] rest
    have hcm : parse_comment (space0 l) = some (r, r) := by
      rw [hrest]
      simp [parse_comment, htag, hp]
    have hne : ¬space0 l = [] := by rw [hrest]; simp
    rw [stepLine, parse_line, if_neg hne, hcm]

/-- Claim C9 witness: the theorem applied at a nonempty builder state, a
comment line with leading blanks and arbitrary bracket/pipe content, and a
blank line. -/
theorem c9_blank_comment_frame_witness :
    stepLine ⟨["q".toList], [], [("q".toList, 0)]⟩ ("  %% any ]| stuff".toList) =
        .ok ⟨["q".toList], [], [("q".toList, 0)]⟩ ∧
      stepLine ⟨[], [], []⟩ ("   ".toList) = .ok ⟨[], [], []⟩ :=
  ⟨c9_blank_comment_frame _ _ (Or.inr ⟨by decide, by decide⟩),
    c9_blank_comment_frame _ _ (Or.inl (by decide))⟩

/-- Claim C10: the per-line classifier parse_line succeeds on every line
(the fallback yields the Error variant instead of a parser failure), so the
Err match arm of the per-line loop of parse_graph is unreachable. -/
theorem c10_parse_line_total : ∀ l : Str, (parse_line l).isSome = true := by
  intro l
  rw [parse_line]
  by_cases hb : space0 l = []
  · simp [hb]
  · rw [if_neg hb]
    cases h1 : parse_comment (space0 l) with
    | some v => cases v; simp
    | none =>
      cases h2 : parse_node (space0 l) with
      | some v => cases v; simp
      | none =>
        cases h3 : parse_edge (space0 l) with
        | some v => cases v; simp
        | none => simp

/-- Claim C10 witness: the classifier succeeds even on an unparsable
line (returning the Error variant). -/
theorem c10_parse_line_total_witness :
    (parse_line ("a --- b".toList)).isSome = true :=
  c10_parse_line_total ("a --- b".toList)

end Flowchart
